import Mathlib

set_option maxRecDepth 4000

/-!
Verification of the segment block storage engine (`internal/store/segment/block/file.go`).

The Go code is shallowly embedded: machine integers become `Int` with explicit
32-bit wrap-around (`int32cast`) at the places where the source performs `int32`
arithmetic or casts; the backing file is a byte list (`List Nat`, each element a
byte value); file writes are represented by returning the bytes that would be
written, and the outcome of the single `physicalFile.Write` call in `Append` is
an oracle parameter `(n, ok)` standing for the pair `(n, err)` that Go's `Write`
returns.  Fallible operations return `Except BlockError`; Go runtime panics
(out-of-range slice index, `make` with a negative size) are modelled as
distinguished error values.
-/

namespace Vanus

/-- Wrap-around of an integer into the signed 32-bit range, modelling Go `int32`
arithmetic and conversions. -/
def int32cast (v : Int) : Int := (v + 2 ^ 31) % 2 ^ 32 - 2 ^ 31

/-- Big-endian encoding of a natural number into `k` bytes (least significant
byte last), modelling `encoding/binary` big-endian writes. -/
def encN : Nat → Nat → List Nat
  | 0, _ => []
  | k + 1, n => encN k (n / 256) ++ [n % 256]

/-- Big-endian decoding of a byte list into an unsigned value. -/
def decZ (l : List Nat) : Int := l.foldl (fun (a : Int) (b : Nat) => a * 256 + b) 0

/-- Decode 4 big-endian bytes as a signed 32-bit integer
(`binary.Read` into an `int32`). -/
def decInt32 (l : List Nat) : Int :=
  if decZ l < 2 ^ 31 then decZ l else decZ l - 2 ^ 32

/-- Decode 8 big-endian bytes as a signed 64-bit integer
(`binary.Read` into an `int64`). -/
def decInt64 (l : List Nat) : Int :=
  if decZ l < 2 ^ 63 then decZ l else decZ l - 2 ^ 64

/-- Encode a signed 32-bit integer as 4 big-endian bytes
(`binary.Write` of an `int32`). -/
def encInt32 (v : Int) : List Nat := encN 4 (v % 2 ^ 32).toNat

/-- Encode a signed 64-bit integer as 8 big-endian bytes
(`binary.Write` of an `int64`). -/
def encInt64 (v : Int) : List Nat := encN 8 (v % 2 ^ 64).toNat

/-- `codec.StoredEntry`: a length field and an opaque payload. -/
structure StoredEntry where
  Length : Int
  Payload : List Nat
  deriving DecidableEq, Repr

/-- `blockIndex`: one index record, `(startOffset int64, length int32)`. -/
structure blockIndex where
  startOffset : Int
  length : Int
  deriving DecidableEq, Repr

/-- `fileSegmentBlockHeaderCapacity = 1024`: size of the header region. -/
def fileSegmentBlockHeaderCapacity : Int := 1024

/-- `v1FileSegmentBlockHeaderLength = 4 + 8 + 4 + 8 = 24`: size of the
serialized v1 header fields. -/
def v1FileSegmentBlockHeaderLength : Int := 4 + 8 + 4 + 8

/-- `v1IndexLength = 12`: serialized size of one index record. -/
def v1IndexLength : Int := 12

/-- The process-local state of `fileBlock` (the fields the claims are about;
the backing file is passed separately as a byte list). -/
structure fileBlock where
  version : Int
  capacity : Int
  length : Int
  number : Int
  writeOffset : Int
  indexes : List blockIndex
  appendable : Bool
  readable : Bool
  full : Bool
  deriving DecidableEq, Repr

/-- Error kinds surfaced by the block, plus markers for Go runtime panics:
`indexOutOfRange` models an out-of-range slice index and `negativeSize`
models `make` with a negative size. -/
inductive BlockError where
  | noEnoughCapacity
  | offsetExceeded
  | ioError
  | indexOutOfRange
  | negativeSize
  deriving DecidableEq, Repr

/-- Modelled from the spec: the entry codec `codec.Marshall` is not under
`src/`; per the spec a framed entry is a 4-byte big-endian length prefix
followed by that many payload bytes, so `Marshall` emits the payload length
followed by the payload. -/
def Marshall (e : StoredEntry) : List Nat := encN 4 e.Payload.length ++ e.Payload

/-- `fileBlock.remain`: `int(capacity - length - int64(number*12) - sizeNeedServed) - 1024`.
`number * v1IndexLength` is `int32` arithmetic in the source, hence the cast. -/
def remain (b : fileBlock) (sizeNeedServed : Int) : Int :=
  b.capacity - b.length - int32cast (b.number * v1IndexLength) - sizeNeedServed -
    fileSegmentBlockHeaderCapacity

/-- The provisional index records built by the loop in `Append`:
`startOffset = writeOffset + bytes so far`, `length = int32(len(data))`. -/
def buildIdxes (off : Int) : List StoredEntry → List blockIndex
  | [] => []
  | e :: rest =>
    let data := Marshall e
    ⟨off, int32cast data.length⟩ :: buildIdxes (off + data.length) rest

/-- The contiguous buffer `Append` serializes a batch into. -/
def entryBytes (es : List StoredEntry) : List Nat := (es.map Marshall).flatten

deriving instance DecidableEq for Except

/-- Result of `Append`: the updated block, the bytes that reached the file, and
the returned error value. -/
structure AppendResult where
  blk : fileBlock
  written : List Nat
  res : Except BlockError Unit
  deriving DecidableEq, Repr

/-- `fileBlock.Append`.  The outcome of the single `physicalFile.Write` call is
the oracle `w = (n, ok)`: `n` bytes reported written and `ok` standing for a
nil error.  Mirrors the source: empty batch returns early; the batch is
serialized and provisional indexes are built; the capacity check rejects with
`NoEnoughCapacity` before any write; otherwise `indexes`, `number` (an `int32`,
via `atomic.AddInt32`) and `writeOffset` (advanced by `n`) are updated
unconditionally after the write and the write's error is returned. -/
def Append (b : fileBlock) (entities : List StoredEntry) (w : Nat × Bool) : AppendResult :=
  if entities.isEmpty then ⟨b, [], .ok ()⟩
  else
    let buf := entryBytes entities
    let idxes := buildIdxes b.writeOffset entities
    if (buf.length : Int) > remain b ((buf.length : Int) + v1IndexLength * idxes.length) then
      ⟨b, [], .error .noEnoughCapacity⟩
    else
      ⟨{ b with
          indexes := b.indexes ++ idxes,
          number := int32cast (b.number + idxes.length),
          writeOffset := b.writeOffset + w.1 },
        buf.take w.1,
        if w.2 then .ok () else .error .ioError⟩

/-- `fileBlock.IsEmpty`: `b.length == fileSegmentBlockHeaderCapacity`. -/
def IsEmpty (b : fileBlock) : Bool := b.length == fileSegmentBlockHeaderCapacity

/-- `fileBlock.IsFull`: the stored full flag. -/
def IsFull (b : fileBlock) : Bool := b.full

/-- `fileBlock.IsAppendable`: `appendable && !IsFull`. -/
def IsAppendable (b : fileBlock) : Bool := b.appendable && !(IsFull b)

/-- `os.File.ReadAt` into a buffer of size `k` at offset `off`: succeeds and
fills the whole buffer exactly when the request lies inside the file. -/
def readAt (file : List Nat) (off : Int) (k : Nat) : Option (List Nat) :=
  if 0 ≤ off ∧ off + k ≤ file.length then some ((file.drop off.toNat).take k) else none

/-- `fileBlock.loadHeader`: read the first 24 bytes, decode
`version, capacity, length, number`, and set
`writeOffset = v1FileSegmentBlockHeaderLength + length` (the source uses the
24-byte struct size here, not the 1024-byte header region). -/
def loadHeader (b : fileBlock) (file : List Nat) : Except BlockError fileBlock :=
  match readAt file 0 24 with
  | none => .error .ioError
  | some hd =>
    let v := decInt32 (hd.take 4)
    let c := decInt64 ((hd.drop 4).take 8)
    let l := decInt64 ((hd.drop 12).take 8)
    let n := decInt32 ((hd.drop 20).take 4)
    .ok { b with
      version := v, capacity := c, length := l, number := n,
      writeOffset := v1FileSegmentBlockHeaderLength + l }

/-- The rebuild loop of `loadIndex` (partial-block path): for each of the
`number` entries, read a 4-byte length prefix at `off`, record
`(off, entityLen)`, and advance `off` by `4 + entityLen`. -/
def rebuildIndex (file : List Nat) (off : Int) : Nat → Except BlockError (List blockIndex)
  | 0 => .ok []
  | k + 1 =>
    match readAt file off 4 with
    | none => .error .ioError
    | some ld =>
      let entityLen := decInt32 ld
      match rebuildIndex file (off + 4 + entityLen) k with
      | .error e => .error e
      | .ok rest => .ok (⟨off, entityLen⟩ :: rest)

/-- Decoding loop of the full-block path of `loadIndex`: read `count` records
of 12 bytes (`int64 startOffset`, `int32 length`) from the buffer. -/
def decodeIndexRecords (l : List Nat) : Nat → List blockIndex
  | 0 => []
  | k + 1 => ⟨decInt64 (l.take 8), decInt32 ((l.drop 8).take 4)⟩ :: decodeIndexRecords (l.drop 12) k

/-- `fileBlock.loadIndex`.  `make([]blockIndex, b.number)` panics on a negative
count (`negativeSize`).  Full block: read `number * v1IndexLength` bytes
(`int32` product) at `writeOffset` and decode records.  Partial block: rebuild
by scanning length prefixes from `fileSegmentBlockHeaderCapacity`. -/
def loadIndex (b : fileBlock) (file : List Nat) : Except BlockError fileBlock :=
  if b.number < 0 then .error .negativeSize
  else if IsFull b then
    let sz := int32cast (b.number * v1IndexLength)
    if sz < 0 then .error .negativeSize
    else
      match readAt file b.writeOffset sz.toNat with
      | none => .error .ioError
      | some idxData => .ok { b with indexes := decodeIndexRecords idxData b.number.toNat }
  else
    match rebuildIndex file fileSegmentBlockHeaderCapacity b.number.toNat with
    | .error e => .error e
    | .ok idxs => .ok { b with indexes := idxs }

/-- Go slice indexing `l[i]` with an `int` index: defined only for
`0 ≤ i < len l`. -/
def idxGet (l : List blockIndex) (i : Int) : Option blockIndex :=
  if 0 ≤ i then l.get? i.toNat else none

/-- `fileBlock.calculateRange`: translate `(start, num)` into a byte range.
`start >= len(indexes)` is `OffsetExceeded`; the comparison
`b.number < int32(offset+1)` selects the clamped end; an out-of-range index
access is a Go panic, modelled by `indexOutOfRange`. -/
def calculateRange (b : fileBlock) (start num : Int) : Except BlockError (Int × Int) :=
  if start ≥ (b.indexes.length : Int) then .error .offsetExceeded
  else
    match idxGet b.indexes start with
    | none => .error .indexOutOfRange
    | some s =>
      let offset := start + num - 1
      if b.number < int32cast (offset + 1) then
        match idxGet b.indexes (b.number - 1) with
        | none => .error .indexOutOfRange
        | some last => .ok (s.startOffset, last.startOffset + last.length)
      else
        match idxGet b.indexes offset with
        | none => .error .indexOutOfRange
        | some e => .ok (s.startOffset, e.startOffset + e.length)

/-- The deframing loop of `fileBlock.Read` over the fetched byte range:
read a 4-byte big-endian `int32` size (stop cleanly on exhaustion, error on a
truncated size), then read the payload with `bytes.Reader.Read` semantics: on
an empty reader it reports EOF and the loop stops cleanly WITHOUT emitting the
entry; otherwise it copies `min size remaining` bytes into the
zero-initialized `size`-byte buffer and the entry is emitted. -/
def deframe (l : List Nat) : Except BlockError (List StoredEntry) :=
  if l.isEmpty then .ok []
  else if _h4 : l.length < 4 then .error .ioError
  else
    let size := decInt32 (l.take 4)
    let rest := l.drop 4
    if size < 0 then .error .negativeSize
    else if rest.isEmpty then .ok []
    else
      let n := min size.toNat rest.length
      let payload := rest.take n ++ List.replicate (size.toNat - n) 0
      match deframe (rest.drop n) with
      | .error e => .error e
      | .ok ses => .ok (⟨size, payload⟩ :: ses)
termination_by l.length
decreasing_by
  simp only [List.length_drop]
  omega

/-- `fileBlock.Read`: resolve the byte range, positional-read it
(`make([]byte, to-from)` panics on a negative size), and deframe. -/
def Read (b : fileBlock) (file : List Nat) (entityStartOffset number : Int) :
    Except BlockError (List StoredEntry) :=
  match calculateRange b entityStartOffset number with
  | .error e => .error e
  | .ok (f, t) =>
    if t - f < 0 then .error .negativeSize
    else
      match readAt file f (t - f).toNat with
      | none => .error .ioError
      | some data => deframe data

/-- The bytes `persistHeader` writes at file offset 0. -/
def persistHeaderBytes (b : fileBlock) : List Nat :=
  encInt32 b.version ++ encInt64 b.capacity ++ encInt64 b.length ++ encInt32 b.number

/-- Serialization of a list of index records, as written by `persistIndex`. -/
def encodeIndexRecords (l : List blockIndex) : List Nat :=
  (l.map (fun i => encInt64 i.startOffset ++ encInt32 i.length)).flatten

/-- Result of `CloseWrite`: the updated block, the header bytes written at
offset 0, and (only when the block is full) the index bytes written at
`writeOffset`. -/
structure CloseWriteResult where
  blk : fileBlock
  headerWrite : List Nat
  indexWrite : Option (Int × List Nat)
  deriving DecidableEq, Repr

/-- `fileBlock.CloseWrite`: store `appendable = false`, drain pending appends
(the spin-wait has no effect on the modelled state), then persist the header
and — only when the block is full — the index region at `writeOffset`. -/
def CloseWrite (b : fileBlock) : CloseWriteResult :=
  let b1 := { b with appendable := false }
  ⟨b1, persistHeaderBytes b1,
    if IsFull b1 then some (b1.writeOffset, encodeIndexRecords b1.indexes) else none⟩

/-- Total serialized length of a list of index records. -/
def sumLen (l : List blockIndex) : Int := (l.map blockIndex.length).sum

/-- The packing invariant of the spec:
`indexes[i].startOffset == 1024 + sum(indexes[0..i-1].length)` for every `i`. -/
def packedSpec (idxs : List blockIndex) : Prop :=
  ∀ i, (h : i < idxs.length) →
    (idxs.get ⟨i, h⟩).startOffset = fileSegmentBlockHeaderCapacity + sumLen (idxs.take i)

/-- Recursive form of the packing invariant, relative to a base offset. -/
def packedFrom (base : Int) : List blockIndex → Prop
  | [] => True
  | i :: rest => i.startOffset = base ∧ packedFrom (base + i.length) rest

/-- A freshly created block: empty payload region, writes begin right after the
1024-byte header region. -/
def freshBlk : fileBlock :=
  { version := 1, capacity := 10000, length := 0, number := 0, writeOffset := 1024,
    indexes := [], appendable := true, readable := true, full := false }

/-- The entry of scenario S2: payload `abc`, framed as `00 00 00 03 61 62 63`. -/
def abcEntry : StoredEntry := ⟨3, [97, 98, 99]⟩

/-- An entry with an empty payload, framed as `00 00 00 00`. -/
def emptyEntry : StoredEntry := ⟨0, []⟩

/-- Block state of a sealed (full) one-entry block, fields as after appending
`abcEntry` to `freshBlk`. -/
def c1FullBlk : fileBlock :=
  { freshBlk with length := 7, number := 1, writeOffset := 1031, full := true }

/-- Block state of an unsealed one-entry block with the same write. -/
def c1PartBlk : fileBlock :=
  { freshBlk with length := 7, number := 1, writeOffset := 1031 }

/-- Backing file of the sealed one-entry block: header region, the framed
entry, then the persisted index region at offset 1031. -/
def c1FullFile : List Nat :=
  List.replicate 1024 0 ++ Marshall abcEntry ++ encodeIndexRecords [⟨1024, 7⟩]

/-- Backing file of the unsealed one-entry block: header region and the framed
entry only. -/
def c1PartFile : List Nat := List.replicate 1024 0 ++ Marshall abcEntry

/-- The block left behind by `CloseWrite freshBlk`: `appendable` is false. -/
def sealedBlk : fileBlock := (CloseWrite freshBlk).blk

/-- A serialized v1 header: version 1, capacity 1100, length 16, number 2. -/
def hdrFile : List Nat := encInt32 1 ++ encInt64 1100 ++ encInt64 16 ++ encInt32 2

/-- One-entry block whose single entry has an empty payload. -/
def c7CexBlk : fileBlock := (Append freshBlk [emptyEntry] (4, true)).blk

/-- Backing file for `c7CexBlk`: header region plus the framed empty entry. -/
def c7CexFile : List Nat := List.replicate 1024 0 ++ Marshall emptyEntry

theorem encN_length (k n : Nat) : (encN k n).length = k := by
  induction k generalizing n with
  | zero => rfl
  | succ k ih => simp [encN, ih]

theorem Marshall_length (e : StoredEntry) : (Marshall e).length = 4 + e.Payload.length := by
  simp [Marshall, encN_length]

/-- Reading `k` bytes at the boundary between `a` and `b` returns a front
segment of `b`. -/
theorem readAt_append (a b : List Nat) (off : Int) (k : Nat)
    (hoff : off = a.length) (hk : k ≤ b.length) :
    readAt (a ++ b) off k = some (b.take k) := by
  subst hoff
  unfold readAt
  rw [if_pos ⟨Int.natCast_nonneg _, by push_cast [List.length_append]; omega⟩]
  rw [Int.toNat_natCast, List.drop_left]

/-- Unfolding of `Read` when the range resolves and the positional read
succeeds. -/
theorem Read_step (b : fileBlock) (file : List Nat) (s n f t : Int) (d : List Nat)
    (hcr : calculateRange b s n = .ok (f, t)) (hft : ¬ t - f < 0)
    (hra : readAt file f (t - f).toNat = some d) :
    Read b file s n = deframe d := by
  unfold Read
  simp only [hcr]
  rw [if_neg hft]
  simp only [hra]

/-- Claim C1: loading the index of a one-entry block via the full-block path
yields `[(1024, 7)]`, the same record the live append path built, but the
partial-block rebuild path yields `[(1024, 3)]` — the recorded length is the
payload length without the 4-byte frame, so the two recovery paths disagree. -/
theorem c1_recovery_divergence :
    (Append freshBlk [abcEntry] (7, true)).blk.indexes = [⟨1024, 7⟩]
    ∧ loadIndex c1FullBlk c1FullFile = .ok { c1FullBlk with indexes := [⟨1024, 7⟩] }
    ∧ loadIndex c1PartBlk c1PartFile = .ok { c1PartBlk with indexes := [⟨1024, 3⟩] }
    ∧ ([⟨1024, 7⟩] : List blockIndex) ≠ [⟨1024, 3⟩] := by
  have hfull : readAt c1FullFile 1031 12 = some (encodeIndexRecords [⟨1024, 7⟩]) := by
    have h := readAt_append (List.replicate 1024 0 ++ Marshall abcEntry)
      (encodeIndexRecords [⟨1024, 7⟩]) 1031 12
      (by simp [List.length_append, Marshall_length, abcEntry]) (by decide)
    rw [List.append_assoc] at h
    rw [show c1FullFile
        = List.replicate 1024 0 ++ (Marshall abcEntry ++ encodeIndexRecords [⟨1024, 7⟩])
      from rfl, h]
    decide
  have hpart : readAt c1PartFile 1024 4 = some [0, 0, 0, 3] := by
    have h := readAt_append (List.replicate 1024 0) (Marshall abcEntry) 1024 4
      (by simp) (by decide)
    rw [show c1PartFile = List.replicate 1024 0 ++ Marshall abcEntry from rfl, h]
    decide
  refine ⟨rfl, ?_, ?_, by decide⟩
  · unfold loadIndex
    rw [if_neg (by decide), if_pos (by decide), if_neg (by decide)]
    rw [show c1FullBlk.writeOffset = (1031 : Int) from rfl,
        show (int32cast (c1FullBlk.number * v1IndexLength)).toNat = 12 from rfl, hfull]
    decide
  · unfold loadIndex
    rw [if_neg (by decide), if_neg (by decide)]
    rw [show c1PartBlk.number.toNat = 1 from rfl]
    unfold rebuildIndex
    rw [show fileSegmentBlockHeaderCapacity = (1024 : Int) from rfl, hpart]
    decide

/-- Claim C2: appending the framed 7-byte entry `00 00 00 03 61 62 63` to a
fresh block advances `number` to 1, `writeOffset` to 1031 and records the
index `(1024, 7)`, but `length` is never advanced by `Append` and stays 0
(the claim expects `length = 7`). -/
theorem c2_append_fresh :
    (Append freshBlk [abcEntry] (7, true)).res = .ok ()
    ∧ (Append freshBlk [abcEntry] (7, true)).blk.number = 1
    ∧ (Append freshBlk [abcEntry] (7, true)).blk.writeOffset = 1031
    ∧ (Append freshBlk [abcEntry] (7, true)).blk.indexes = [⟨1024, 7⟩]
    ∧ (Append freshBlk [abcEntry] (7, true)).blk.length = 0
    ∧ freshBlk.length = 0 :=
  ⟨rfl, rfl, rfl, rfl, rfl, rfl⟩

/-- Claim C4: `CloseWrite` leaves `appendable = false`, yet a subsequent
`Append` on that sealed state succeeds and stores the entry — `Append` never
consults the appendable flag. -/
theorem c4_append_after_closewrite :
    sealedBlk.appendable = false
    ∧ (Append sealedBlk [abcEntry] (7, true)).res = .ok ()
    ∧ (Append sealedBlk [abcEntry] (7, true)).blk.number = 1
    ∧ (Append sealedBlk [abcEntry] (7, true)).blk.indexes = [⟨1024, 7⟩] :=
  ⟨rfl, rfl, rfl, rfl⟩

/-- Claim C5, counterexample: when the file write fails after writing 0 bytes,
`Append` surfaces the I/O error but still advances `number` from 0 to 1 and
appends the index record — refuting that the counters and indexes are left
unchanged on a failed write. -/
theorem c5_failed_write_cex :
    (Append freshBlk [abcEntry] (0, false)).res = .error .ioError
    ∧ (Append freshBlk [abcEntry] (0, false)).blk.number = 1
    ∧ (Append freshBlk [abcEntry] (0, false)).blk.indexes = [⟨1024, 7⟩]
    ∧ freshBlk.number = 0 ∧ freshBlk.indexes = [] :=
  ⟨rfl, rfl, rfl, rfl, rfl⟩

/-- Claim C6: decoding a header with payload length 16 sets
`writeOffset = 24 + 16 = 40`, not `1024 + 16` as the claim states — the source
adds the 24-byte serialized header length, not the 1024-byte header region. -/
theorem c6_loadheader_writeoffset :
    loadHeader freshBlk hdrFile
      = .ok { freshBlk with version := 1, capacity := 1100, length := 16,
                            number := 2, writeOffset := 40 }
    ∧ (40 : Int) ≠ 1024 + 16 :=
  ⟨rfl, by decide⟩

/-- Claim C7, counterexample: on a block holding one stored entry whose payload
is empty, `Read(0, 1)` succeeds but returns 0 entries instead of
`number − startOrdinal = 1`: the deframing loop drops a trailing entry whose
payload region is empty. -/
theorem c7_trailing_empty_cex :
    c7CexBlk.number = 1 ∧ Read c7CexBlk c7CexFile 0 1 = .ok [] := by
  refine ⟨rfl, ?_⟩
  have hra : readAt c7CexFile 1024 4 = some [0, 0, 0, 0] := by
    have h := readAt_append (List.replicate 1024 0) (Marshall emptyEntry) 1024 4
      (by simp) (by decide)
    rw [show c7CexFile = List.replicate 1024 0 ++ Marshall emptyEntry from rfl, h]
    decide
  rw [Read_step c7CexBlk c7CexFile 0 1 1024 1028 [0, 0, 0, 0] rfl (by decide) hra]
  rw [deframe.eq_def]
  norm_num [decInt32, decZ]

/-- Claim C9, counterexample: a fresh block with `length = 0` reports
`IsEmpty = false`, refuting `IsEmpty ⇔ length == 0`. -/
theorem c9_isempty_cex : IsEmpty freshBlk = false ∧ freshBlk.length = 0 :=
  ⟨rfl, rfl⟩

/-- Claim C9, amended: `IsEmpty` returns true exactly when `length` equals
1024, the header-region size — not when `length` is zero. -/
theorem c9_isempty_amended (b : fileBlock) : IsEmpty b = true ↔ b.length = 1024 := by
  simp [IsEmpty, fileSegmentBlockHeaderCapacity]

theorem int32cast_self (v : Int) (h0 : -(2 ^ 31) ≤ v) (h1 : v < 2 ^ 31) :
    int32cast v = v := by
  unfold int32cast
  omega

theorem buildIdxes_length (off : Int) (es : List StoredEntry) :
    (buildIdxes off es).length = es.length := by
  induction es generalizing off with
  | nil => rfl
  | cons e rest ih => simp [buildIdxes, ih]

theorem idxGet_neg (l : List blockIndex) (i : Int) (h : i < 0) : idxGet l i = none := by
  unfold idxGet
  rw [if_neg (by omega)]

theorem idxGet_isSome (l : List blockIndex) (i : Int) (h0 : 0 ≤ i)
    (h : i < (l.length : Int)) : ∃ r, idxGet l i = some r := by
  unfold idxGet
  rw [if_pos h0]
  have hlt : i.toNat < l.length := by omega
  exact ⟨l.get ⟨i.toNat, hlt⟩, List.get?_eq_get hlt⟩

/-- Unfolding of `calculateRange` past the bounds guard and the first index
fetch. -/
theorem calculateRange_step (b : fileBlock) (start num : Int) (s : blockIndex)
    (hguard : ¬ start ≥ (b.indexes.length : Int))
    (hs : idxGet b.indexes start = some s) :
    calculateRange b start num
      = if b.number < int32cast (start + num - 1 + 1) then
          match idxGet b.indexes (b.number - 1) with
          | none => Except.error BlockError.indexOutOfRange
          | some last => Except.ok (s.startOffset, last.startOffset + last.length)
        else
          match idxGet b.indexes (start + num - 1) with
          | none => Except.error BlockError.indexOutOfRange
          | some e => Except.ok (s.startOffset, e.startOffset + e.length) := by
  unfold calculateRange
  rw [if_neg hguard]
  simp only [hs]

/-- Claim C3: for a non-empty batch, `Append` returns `NoEnoughCapacity`
exactly when the total framed size `P` exceeds
`capacity − length − number·12 − (P + n·12) − 1024`, and on rejection the
block state is unchanged and nothing is written. -/
theorem c3_capacity_check (b : fileBlock) (es : List StoredEntry) (w : Nat × Bool)
    (hne : es ≠ []) (hn0 : 0 ≤ b.number) (hn1 : b.number * 12 < 2 ^ 31) :
    ((Append b es w).res = .error .noEnoughCapacity ↔
      ((entryBytes es).length : Int) >
        b.capacity - b.length - b.number * 12
          - (((entryBytes es).length : Int) + (es.length : Int) * 12) - 1024)
    ∧ ((Append b es w).res = .error .noEnoughCapacity →
        (Append b es w).blk = b ∧ (Append b es w).written = []) := by
  unfold Append
  rw [if_neg (by simpa [List.isEmpty_iff] using hne)]
  dsimp only
  have hrem : remain b (((entryBytes es).length : Int)
        + v1IndexLength * ((buildIdxes b.writeOffset es).length : Int))
      = b.capacity - b.length - b.number * 12
        - (((entryBytes es).length : Int) + (es.length : Int) * 12) - 1024 := by
    unfold remain v1IndexLength fileSegmentBlockHeaderCapacity
    rw [buildIdxes_length]
    rw [int32cast_self (b.number * 12) (by omega) (by omega)]
    ring
  rw [hrem]
  by_cases hgt : ((entryBytes es).length : Int) >
      b.capacity - b.length - b.number * 12
        - (((entryBytes es).length : Int) + (es.length : Int) * 12) - 1024
  · rw [if_pos hgt]
    exact ⟨⟨fun _ => hgt, fun _ => rfl⟩, fun _ => ⟨rfl, rfl⟩⟩
  · rw [if_neg hgt]
    have hres : (if w.2 = true then Except.ok () else Except.error BlockError.ioError)
        ≠ (Except.error BlockError.noEnoughCapacity : Except BlockError Unit) := by
      cases w.2 <;> simp
    exact ⟨⟨fun h => absurd h hres, fun h => absurd h hgt⟩, fun h => absurd h hres⟩

/-- A block near capacity: capacity 1100, length 60, number 2 (scenario S4). -/
def capBlk : fileBlock :=
  { version := 1, capacity := 1100, length := 60, number := 2, writeOffset := 1084,
    indexes := [⟨1024, 30⟩, ⟨1054, 30⟩], appendable := true, readable := true, full := false }

/-- A framed entry of total size 40 (payload 36 bytes). -/
def cap40Entry : StoredEntry := ⟨36, List.replicate 36 7⟩

theorem c3_capacity_check_witness :
    ((Append capBlk [cap40Entry] (0, true)).res = .error .noEnoughCapacity ↔
      ((entryBytes [cap40Entry]).length : Int) >
        capBlk.capacity - capBlk.length - capBlk.number * 12
          - (((entryBytes [cap40Entry]).length : Int)
              + (([cap40Entry] : List StoredEntry).length : Int) * 12) - 1024)
    ∧ ((Append capBlk [cap40Entry] (0, true)).res = .error .noEnoughCapacity →
        (Append capBlk [cap40Entry] (0, true)).blk = capBlk
        ∧ (Append capBlk [cap40Entry] (0, true)).written = []) :=
  c3_capacity_check capBlk [cap40Entry] (0, true) (by decide) (by decide) (by decide)

/-- Claim C5, amended: on a failed write `Append` surfaces the I/O error while
still appending the provisional index records, advancing `number` by the entry
count and `writeOffset` by the reported byte count; `length` is untouched. -/
theorem c5_failed_write_amended (b : fileBlock) (es : List StoredEntry) (n : Nat)
    (hne : es ≠ [])
    (hfit : ¬(((entryBytes es).length : Int) >
        remain b (((entryBytes es).length : Int) + v1IndexLength * (es.length : Int)))) :
    (Append b es (n, false)).res = .error .ioError
    ∧ (Append b es (n, false)).blk.indexes = b.indexes ++ buildIdxes b.writeOffset es
    ∧ (Append b es (n, false)).blk.number = int32cast (b.number + es.length)
    ∧ (Append b es (n, false)).blk.writeOffset = b.writeOffset + n
    ∧ (Append b es (n, false)).blk.length = b.length := by
  unfold Append
  rw [if_neg (by simpa [List.isEmpty_iff] using hne)]
  dsimp only
  rw [if_neg (by rw [buildIdxes_length]; exact hfit)]
  refine ⟨rfl, rfl, ?_, rfl, rfl⟩
  dsimp only
  rw [buildIdxes_length]

theorem c5_failed_write_amended_witness :
    (Append freshBlk [abcEntry] (0, false)).res = .error .ioError
    ∧ (Append freshBlk [abcEntry] (0, false)).blk.indexes
        = freshBlk.indexes ++ buildIdxes freshBlk.writeOffset [abcEntry]
    ∧ (Append freshBlk [abcEntry] (0, false)).blk.number
        = int32cast (freshBlk.number + ([abcEntry] : List StoredEntry).length)
    ∧ (Append freshBlk [abcEntry] (0, false)).blk.writeOffset = freshBlk.writeOffset + 0
    ∧ (Append freshBlk [abcEntry] (0, false)).blk.length = freshBlk.length :=
  c5_failed_write_amended freshBlk [abcEntry] 0 (by decide) (by decide)

/-- Claim C10: with one or more stored entries, `calculateRange 0 0` performs
the out-of-range access `indexes[-1]`; with `count ≥ 1` (and `start + count`
within the `int32` range of the cast in the clamping comparison) the
out-of-range branch is unreachable. -/
theorem c10_range_oob (b : fileBlock)
    (hnum : b.number = b.indexes.length) (hne : b.indexes ≠ []) :
    calculateRange b 0 0 = .error .indexOutOfRange
    ∧ ∀ start count : Nat, 1 ≤ count → (start : Int) + count < 2 ^ 31 →
        calculateRange b start count ≠ .error .indexOutOfRange := by
  have hlen : 0 < b.indexes.length := List.length_pos.mpr hne
  constructor
  · obtain ⟨x, hx⟩ := idxGet_isSome b.indexes 0 (by omega) (by omega)
    rw [calculateRange_step b 0 0 x (by omega) hx]
    rw [show (0 : Int) + 0 - 1 + 1 = 0 by ring,
        show int32cast 0 = 0 from by decide,
        if_neg (show ¬ b.number < 0 by omega),
        show (0 : Int) + 0 - 1 = -1 by ring,
        idxGet_neg b.indexes (-1) (by omega)]
  · intro start count hc hlt
    by_cases hs : (start : Int) ≥ (b.indexes.length : Int)
    · unfold calculateRange
      rw [if_pos hs]
      simp
    · obtain ⟨x, hx⟩ := idxGet_isSome b.indexes start (by omega) (by omega)
      rw [calculateRange_step b start count x hs hx]
      rw [show (start : Int) + (count : Int) - 1 + 1 = (start : Int) + (count : Int) by ring,
          int32cast_self ((start : Int) + (count : Int)) (by omega) hlt]
      by_cases hclamp : b.number < (start : Int) + (count : Int)
      · rw [if_pos hclamp]
        obtain ⟨y, hy⟩ := idxGet_isSome b.indexes (b.number - 1) (by omega) (by omega)
        rw [hy]
        simp
      · rw [if_neg hclamp]
        obtain ⟨y, hy⟩ := idxGet_isSome b.indexes ((start : Int) + (count : Int) - 1)
          (by omega) (by omega)
        rw [hy]
        simp

/-- A one-entry block used to exercise `calculateRange` at the corner cases. -/
def c10Blk : fileBlock := { freshBlk with number := 1, indexes := [⟨1024, 7⟩] }

theorem c10_range_oob_witness :
    calculateRange c10Blk 0 0 = .error .indexOutOfRange
    ∧ calculateRange c10Blk 0 1 ≠ .error .indexOutOfRange :=
  ⟨(c10_range_oob c10Blk (by decide) (by decide)).1,
   (c10_range_oob c10Blk (by decide) (by decide)).2 0 1 (by decide) (by decide)⟩

theorem decZ_concat (l : List Nat) (x : Nat) :
    decZ (l ++ [x]) = decZ l * 256 + x := by
  unfold decZ
  rw [List.foldl_append]
  rfl

theorem decZ_encN (k n : Nat) (h : n < 256 ^ k) : decZ (encN k n) = n := by
  induction k generalizing n with
  | zero =>
    have hn : n = 0 := by simpa using h
    subst hn
    rfl
  | succ k ih =>
    rw [encN, decZ_concat, ih (n / 256)
      ((Nat.div_lt_iff_lt_mul (by norm_num)).mpr (by rw [← pow_succ]; exact h))]
    push_cast
    omega

theorem decInt32_encN (n : Nat) (h : n < 2 ^ 31) : decInt32 (encN 4 n) = n := by
  unfold decInt32
  rw [decZ_encN 4 n (by norm_num at h ⊢; omega)]
  rw [if_pos (by norm_num at h ⊢; omega)]

theorem decInt64_encInt64 (v : Int) (h0 : 0 ≤ v) (h1 : v < 2 ^ 63) :
    decInt64 (encInt64 v) = v := by
  unfold decInt64 encInt64
  rw [Int.emod_eq_of_lt h0 (by norm_num at h1 ⊢; omega)]
  rw [decZ_encN 8 v.toNat (by norm_num at h1 ⊢; omega)]
  rw [Int.toNat_of_nonneg h0]
  rw [if_pos h1]

theorem decInt32_encInt32 (v : Int) (h0 : 0 ≤ v) (h1 : v < 2 ^ 31) :
    decInt32 (encInt32 v) = v := by
  unfold decInt32 encInt32
  rw [Int.emod_eq_of_lt h0 (by norm_num at h1 ⊢; omega)]
  rw [decZ_encN 4 v.toNat (by norm_num at h1 ⊢; omega)]
  rw [Int.toNat_of_nonneg h0]
  rw [if_pos h1]

theorem entryBytes_nil : entryBytes [] = [] := rfl

theorem entryBytes_cons (e : StoredEntry) (es : List StoredEntry) :
    entryBytes (e :: es) = Marshall e ++ entryBytes es := by
  simp [entryBytes]

theorem entryBytes_append (l1 l2 : List StoredEntry) :
    entryBytes (l1 ++ l2) = entryBytes l1 ++ entryBytes l2 := by
  simp [entryBytes]

/-- Inversion of the deframing loop on a packed sequence of framed entries with
non-empty payloads: every framed entry is recovered, with its decoded size in
the `Length` field. -/
theorem deframe_entryBytes (es : List StoredEntry)
    (hp : ∀ e ∈ es, e.Payload ≠ [] ∧ e.Payload.length < 2 ^ 31) :
    deframe (entryBytes es)
      = .ok (es.map fun e => ⟨(e.Payload.length : Int), e.Payload⟩) := by
  induction es with
  | nil =>
    rw [entryBytes_nil, deframe.eq_def]
    rfl
  | cons e tl ih =>
    obtain ⟨hne, hlt⟩ := hp e (List.mem_cons_self e tl)
    have htl : ∀ x ∈ tl, x.Payload ≠ [] ∧ x.Payload.length < 2 ^ 31 :=
      fun x hx => hp x (List.mem_cons_of_mem e hx)
    have hE : entryBytes (e :: tl)
        = encN 4 e.Payload.length ++ (e.Payload ++ entryBytes tl) := by
      rw [entryBytes_cons, Marshall, List.append_assoc]
    have hlen4 : (encN 4 e.Payload.length).length = 4 := encN_length 4 _
    have hlen : 4 ≤ (entryBytes (e :: tl)).length := by
      rw [hE, List.length_append, hlen4]
      omega
    have hne0 : entryBytes (e :: tl) ≠ [] := by
      intro hcon
      rw [hcon] at hlen
      simp at hlen
    have htake : (entryBytes (e :: tl)).take 4 = encN 4 e.Payload.length := by
      rw [hE]
      exact List.take_left' hlen4
    have hdrop : (entryBytes (e :: tl)).drop 4 = e.Payload ++ entryBytes tl := by
      rw [hE]
      exact List.drop_left' hlen4
    have hne1 : e.Payload ++ entryBytes tl ≠ [] := by
      intro hcon
      exact hne (List.append_eq_nil.mp hcon).1
    rw [deframe.eq_def]
    rw [if_neg (by simpa [List.isEmpty_iff] using hne0)]
    rw [dif_neg (by omega)]
    dsimp only
    rw [htake, hdrop, decInt32_encN e.Payload.length hlt]
    rw [if_neg (by omega)]
    rw [if_neg (by simpa [List.isEmpty_iff] using hne1)]
    rw [Int.toNat_natCast, List.length_append,
        min_eq_left (Nat.le_add_right _ _),
        List.take_left, List.drop_left,
        Nat.sub_self, List.replicate_zero, List.append_nil]
    rw [ih htl]
    rfl

/-- The index record built by the live append path for ordinal `i`. -/
theorem buildIdxes_get (es : List StoredEntry) (off : Int) (i : Nat) (e : StoredEntry)
    (he : es.get? i = some e) :
    (buildIdxes off es).get? i
      = some ⟨off + ((entryBytes (es.take i)).length : Int),
              int32cast ((Marshall e).length : Int)⟩ := by
  induction es generalizing off i with
  | nil => simp at he
  | cons x tl ih =>
    have hcons : buildIdxes off (x :: tl)
        = ⟨off, int32cast ((Marshall x).length : Int)⟩
          :: buildIdxes (off + ((Marshall x).length : Int)) tl := rfl
    cases i with
    | zero =>
      simp only [List.get?_cons_zero, Option.some_inj] at he
      subst he
      rw [hcons]
      simp [entryBytes_nil]
    | succ i =>
      simp only [List.get?_cons_succ] at he
      rw [hcons, List.get?_cons_succ, ih _ i he]
      simp only [List.take_succ_cons, entryBytes_cons, List.length_append]
      congr 2
      push_cast
      ring

theorem take_split (es : List StoredEntry) (s m : Nat) (hsm : s ≤ m) :
    es.take m = es.take s ++ (es.drop s).take (m - s) := by
  rw [← List.take_add]
  rw [Nat.add_sub_cancel' hsm]

/-- Reading the byte range covered by the segment `[s, m)` of a packed payload
region returns exactly that segment's framed bytes. -/
theorem readAt_segment (hdr rest : List Nat) (es : List StoredEntry) (s m : Nat)
    (hsm : s ≤ m) (hm : m ≤ es.length) (hhdr : hdr.length = 1024) :
    readAt (hdr ++ (entryBytes es ++ rest))
        (1024 + ((entryBytes (es.take s)).length : Int))
        ((entryBytes ((es.drop s).take (m - s))).length)
      = some (entryBytes ((es.drop s).take (m - s))) := by
  have hdecomp : es = es.take s ++ ((es.drop s).take (m - s) ++ es.drop m) := by
    conv_lhs => rw [← List.take_append_drop m es]
    rw [take_split es s m hsm, List.append_assoc]
  have hfile2 : hdr ++ (entryBytes es ++ rest)
      = (hdr ++ entryBytes (es.take s))
        ++ (entryBytes ((es.drop s).take (m - s))
            ++ (entryBytes (es.drop m) ++ rest)) := by
    conv_lhs => rw [hdecomp]
    rw [entryBytes_append, entryBytes_append]
    simp [List.append_assoc]
  rw [hfile2]
  rw [readAt_append _ _ _ _
    (by rw [List.length_append, hhdr]; push_cast; ring)
    (by rw [List.length_append]; exact Nat.le_add_right _ _)]
  rw [List.take_left]

/-- The record that the live append path stores for ordinal `i`, with the
`int32` cast on the length collapsed. -/
theorem idxGet_buildIdxes (es : List StoredEntry) (i : Nat) (e : StoredEntry)
    (he : es.get? i = some e) (hlt : (Marshall e).length < 2 ^ 31) :
    idxGet (buildIdxes 1024 es) i
      = some ⟨1024 + ((entryBytes (es.take i)).length : Int),
              ((Marshall e).length : Int)⟩ := by
  unfold idxGet
  rw [if_pos (by omega)]
  rw [Int.toNat_natCast]
  rw [buildIdxes_get es 1024 i e he]
  rw [int32cast_self ((Marshall e).length : Int) (by omega) (by omega)]

/-- End position of record `i`: start plus framed length reaches the end of
the prefix of `i + 1` entries. -/
theorem endPos_buildIdxes (es : List StoredEntry) (i : Nat) (e : StoredEntry)
    (he : es.get? i = some e) :
    (1024 + ((entryBytes (es.take i)).length : Int)) + ((Marshall e).length : Int)
      = 1024 + ((entryBytes (es.take (i + 1))).length : Int) := by
  rw [List.take_succ, ← List.get?_eq_getElem?, he]
  rw [show (some e).toList = [e] from rfl]
  rw [entryBytes_append,
      show entryBytes [e] = Marshall e from by
        rw [entryBytes_cons, entryBytes_nil, List.append_nil],
      List.length_append]
  push_cast
  ring

/-- `Read` over a well-formed block returns exactly the entries of the
resolved segment `[start, m)`. -/
theorem Read_ok_of_range (b : fileBlock) (es : List StoredEntry)
    (hdr rest file : List Nat) (start count m : Nat)
    (hfile : file = hdr ++ (entryBytes es ++ rest)) (hhdr : hdr.length = 1024)
    (hm : m ≤ es.length)
    (hcr : calculateRange b start count
        = .ok (1024 + ((entryBytes (es.take start)).length : Int),
               1024 + ((entryBytes (es.take m)).length : Int)))
    (hp : ∀ e ∈ es, e.Payload ≠ [] ∧ e.Payload.length + 4 < 2 ^ 31)
    (hsm : start ≤ m) :
    Read b file start count
      = .ok (((es.drop start).take (m - start)).map
          fun e => ⟨(e.Payload.length : Int), e.Payload⟩) := by
  have hlen_m : (entryBytes (es.take m)).length
      = (entryBytes (es.take start)).length
        + (entryBytes ((es.drop start).take (m - start))).length := by
    rw [take_split es start m hsm, entryBytes_append, List.length_append]
  have hdiff : (1024 + ((entryBytes (es.take m)).length : Int))
        - (1024 + ((entryBytes (es.take start)).length : Int))
      = ((entryBytes ((es.drop start).take (m - start))).length : Int) := by
    rw [hlen_m]
    push_cast
    ring
  rw [Read_step b file start count _ _ _ hcr (by rw [hdiff]; omega)
    (by
      rw [hdiff, Int.toNat_natCast, hfile]
      exact readAt_segment hdr rest es start m hsm hm hhdr)]
  refine deframe_entryBytes _ (fun e hmem => ?_)
  have h2 := hp e (List.drop_subset _ _ (List.take_subset _ _ hmem))
  exact ⟨h2.1, by omega⟩

theorem calculateRange_clamped (b : fileBlock) (start num : Int) (s last : blockIndex)
    (hguard : ¬ start ≥ (b.indexes.length : Int))
    (hs : idxGet b.indexes start = some s)
    (hcl : b.number < int32cast (start + num - 1 + 1))
    (hlast : idxGet b.indexes (b.number - 1) = some last) :
    calculateRange b start num = .ok (s.startOffset, last.startOffset + last.length) := by
  rw [calculateRange_step b start num s hguard hs]
  rw [if_pos hcl]
  simp only [hlast]

theorem calculateRange_straight (b : fileBlock) (start num : Int) (s e : blockIndex)
    (hguard : ¬ start ≥ (b.indexes.length : Int))
    (hs : idxGet b.indexes start = some s)
    (hcl : ¬ b.number < int32cast (start + num - 1 + 1))
    (he : idxGet b.indexes (start + num - 1) = some e) :
    calculateRange b start num = .ok (s.startOffset, e.startOffset + e.length) := by
  rw [calculateRange_step b start num s hguard hs]
  rw [if_neg hcl]
  simp only [he]

/-- Claim C7, amended: over a well-formed block whose stored entries all have
non-empty payloads, `Read(startOrdinal, count)` with `count ≥ 1` (and
`startOrdinal + count` inside the `int32` range of the cast in the clamping
comparison) returns `OffsetExceeded` exactly when `startOrdinal ≥ number`, and
otherwise succeeds with exactly `min count (number − startOrdinal)` entries:
`count` entries when the request fits, `number − startOrdinal` when clamped.
The non-empty-payload hypothesis is necessary: a trailing empty-payload entry
is dropped by the deframing loop (see the counterexample). -/
theorem c7_read_amended (b : fileBlock) (es : List StoredEntry)
    (hdr rest file : List Nat) (start count : Nat)
    (hfile : file = hdr ++ (entryBytes es ++ rest))
    (hhdr : hdr.length = 1024)
    (hidx : b.indexes = buildIdxes 1024 es)
    (hnum : b.number = (es.length : Int))
    (hp : ∀ e ∈ es, e.Payload ≠ [] ∧ e.Payload.length + 4 < 2 ^ 31)
    (hc : 1 ≤ count) (hrange : (start : Int) + (count : Int) < 2 ^ 31) :
    (Read b file start count = .error .offsetExceeded ↔ es.length ≤ start)
    ∧ (start < es.length →
        Read b file start count
          = .ok (((es.drop start).take count).map
              fun e => ⟨(e.Payload.length : Int), e.Payload⟩)
        ∧ ((es.drop start).take count).length = min count (es.length - start)) := by
  have hlenidx : b.indexes.length = es.length := by rw [hidx, buildIdxes_length]
  have hccast : int32cast ((start : Int) + (count : Int) - 1 + 1)
      = (start : Int) + (count : Int) := by
    rw [show (start : Int) + (count : Int) - 1 + 1 = (start : Int) + (count : Int) by ring]
    exact int32cast_self _ (by omega) hrange
  by_cases hs : start < es.length
  · obtain ⟨eS, heS⟩ : ∃ e, es.get? start = some e :=
      ⟨es.get ⟨start, hs⟩, List.get?_eq_get hs⟩
    have hltS : (Marshall eS).length < 2 ^ 31 := by
      have := (hp eS (List.get?_mem heS)).2
      rw [Marshall_length]
      omega
    have hguard : ¬ ((start : Int) ≥ (b.indexes.length : Int)) := by
      rw [hlenidx]
      push_cast
      omega
    have hfromIdx : idxGet b.indexes start
        = some ⟨1024 + ((entryBytes (es.take start)).length : Int),
                ((Marshall eS).length : Int)⟩ := by
      rw [hidx]
      exact idxGet_buildIdxes es start eS heS hltS
    have hread : Read b file start count
        = .ok (((es.drop start).take count).map
            fun e => ⟨(e.Payload.length : Int), e.Payload⟩) := by
      by_cases hcl : es.length < start + count
      · -- clamped read: resolves up to the last stored entry
        obtain ⟨eE, heE⟩ : ∃ e, es.get? (es.length - 1) = some e :=
          ⟨es.get ⟨es.length - 1, by omega⟩, List.get?_eq_get (by omega)⟩
        have hltE : (Marshall eE).length < 2 ^ 31 := by
          have := (hp eE (List.get?_mem heE)).2
          rw [Marshall_length]
          omega
        have hlastIdx : idxGet b.indexes (b.number - 1)
            = some ⟨1024 + ((entryBytes (es.take (es.length - 1))).length : Int),
                    ((Marshall eE).length : Int)⟩ := by
          rw [hnum,
              show ((es.length : Int) - 1) = ((es.length - 1 : Nat) : Int) by
                push_cast [hs]
                omega,
              hidx]
          exact idxGet_buildIdxes es (es.length - 1) eE heE hltE
        have hcr := calculateRange_clamped b start count _ _ hguard hfromIdx
          (by rw [hccast, hnum]; push_cast; omega) hlastIdx
        have hend := endPos_buildIdxes es (es.length - 1) eE heE
        rw [show es.length - 1 + 1 = es.length from by omega] at hend
        rw [hend] at hcr
        have hmain := Read_ok_of_range b es hdr rest file start count es.length
          hfile hhdr (le_refl _) hcr hp (by omega)
        rw [List.take_of_length_le (by rw [List.length_drop]) ] at hmain
        rw [hmain, List.take_of_length_le (by rw [List.length_drop]; omega)]
      · -- straight read: resolves up to ordinal start + count - 1
        obtain ⟨eE, heE⟩ : ∃ e, es.get? (start + count - 1) = some e :=
          ⟨es.get ⟨start + count - 1, by omega⟩, List.get?_eq_get (by omega)⟩
        have hltE : (Marshall eE).length < 2 ^ 31 := by
          have := (hp eE (List.get?_mem heE)).2
          rw [Marshall_length]
          omega
        have hendIdx : idxGet b.indexes ((start : Int) + (count : Int) - 1)
            = some ⟨1024 + ((entryBytes (es.take (start + count - 1))).length : Int),
                    ((Marshall eE).length : Int)⟩ := by
          rw [show ((start : Int) + (count : Int) - 1)
              = ((start + count - 1 : Nat) : Int) by push_cast [hc]; omega]
          rw [hidx]
          exact idxGet_buildIdxes es (start + count - 1) eE heE hltE
        have hcr := calculateRange_straight b start count _ _ hguard hfromIdx
          (by rw [hccast, hnum]; push_cast; omega) hendIdx
        have hend := endPos_buildIdxes es (start + count - 1) eE heE
        rw [show start + count - 1 + 1 = start + count from by omega] at hend
        rw [hend] at hcr
        have hmain := Read_ok_of_range b es hdr rest file start count (start + count)
          hfile hhdr (by omega) hcr hp (by omega)
        rw [show start + count - start = count from by omega] at hmain
        exact hmain
    refine ⟨?_, fun _ => ⟨hread, by simp⟩⟩
    rw [hread]
    simp
    omega
  · have hcr : calculateRange b start count = .error .offsetExceeded := by
      unfold calculateRange
      rw [if_pos (by rw [hlenidx]; push_cast; omega)]
    have hread : Read b file start count = .error .offsetExceeded := by
      unfold Read
      simp only [hcr]
    exact ⟨by rw [hread]; simp; omega, fun hcon => absurd hcon hs⟩

/-- The entry of scenario S3's second write: payload of 5 bytes. -/
def defEntry : StoredEntry := ⟨5, [100, 101, 102, 103, 104]⟩

/-- A well-formed two-entry block (scenario S3). -/
def c7WBlk : fileBlock :=
  { freshBlk with
      number := 2
      writeOffset := 1040
      indexes := buildIdxes 1024 [abcEntry, defEntry] }

/-- Backing file of `c7WBlk`. -/
def c7WFile : List Nat :=
  List.replicate 1024 0 ++ (entryBytes [abcEntry, defEntry] ++ [])

theorem c7_read_amended_witness :
    (Read c7WBlk c7WFile 0 5 = .error .offsetExceeded
      ↔ ([abcEntry, defEntry] : List StoredEntry).length ≤ 0)
    ∧ (0 < ([abcEntry, defEntry] : List StoredEntry).length →
        Read c7WBlk c7WFile 0 5
          = .ok (((([abcEntry, defEntry] : List StoredEntry).drop 0).take 5).map
              fun e => ⟨(e.Payload.length : Int), e.Payload⟩)
        ∧ ((([abcEntry, defEntry] : List StoredEntry).drop 0).take 5).length
            = min 5 (([abcEntry, defEntry] : List StoredEntry).length - 0)) :=
  c7_read_amended c7WBlk [abcEntry, defEntry] (List.replicate 1024 0) [] c7WFile 0 5
    rfl (by simp) rfl rfl (by decide) (by decide) (by decide)

/-- Executable form of the packing invariant, for concrete checks. -/
def packedFromB (base : Int) : List blockIndex → Bool
  | [] => true
  | x :: rest => (x.startOffset == base) && packedFromB (base + x.length) rest

theorem sumLen_nil : sumLen [] = 0 := rfl

theorem sumLen_cons (x : blockIndex) (l : List blockIndex) :
    sumLen (x :: l) = x.length + sumLen l := by
  simp [sumLen]

theorem packedFrom_get (base : Int) (l : List blockIndex) (h : packedFrom base l) :
    ∀ i, (hi : i < l.length) → (l.get ⟨i, hi⟩).startOffset = base + sumLen (l.take i) := by
  induction l generalizing base with
  | nil =>
    intro i hi
    simp at hi
  | cons x tl ih =>
    obtain ⟨hx, htl⟩ := h
    intro i hi
    cases i with
    | zero => simpa [sumLen_nil] using hx
    | succ i =>
      have hrec := ih (base + x.length) htl i (by simpa using hi)
      simp only [List.get_cons_succ, List.take_succ_cons, sumLen_cons]
      rw [hrec]
      ring

theorem packedFrom_of_get (base : Int) (l : List blockIndex)
    (h : ∀ i, (hi : i < l.length) → (l.get ⟨i, hi⟩).startOffset = base + sumLen (l.take i)) :
    packedFrom base l := by
  induction l generalizing base with
  | nil => trivial
  | cons x tl ih =>
    constructor
    · have := h 0 (by simp)
      simpa [sumLen_nil] using this
    · apply ih
      intro i hi
      have := h (i + 1) (by simpa using hi)
      simp only [List.get_cons_succ, List.take_succ_cons, sumLen_cons] at this
      rw [this]
      ring

theorem packedSpec_iff (l : List blockIndex) :
    packedSpec l ↔ packedFrom fileSegmentBlockHeaderCapacity l :=
  ⟨packedFrom_of_get _ l, packedFrom_get _ l⟩

theorem packedFromB_iff (base : Int) (l : List blockIndex) :
    packedFromB base l = true ↔ packedFrom base l := by
  induction l generalizing base with
  | nil => simp [packedFromB, packedFrom]
  | cons x tl ih => simp [packedFromB, packedFrom, ih]

theorem packedFrom_buildIdxes (off : Int) (es : List StoredEntry)
    (h : ∀ e ∈ es, ((Marshall e).length : Int) < 2 ^ 31) :
    packedFrom off (buildIdxes off es) := by
  induction es generalizing off with
  | nil => trivial
  | cons e tl ih =>
    refine ⟨rfl, ?_⟩
    show packedFrom (off + int32cast ((Marshall e).length : Int))
      (buildIdxes (off + ((Marshall e).length : Int)) tl)
    rw [int32cast_self _ (by omega) (h e (List.mem_cons_self e tl))]
    exact ih _ (fun x hx => h x (List.mem_cons_of_mem e hx))

theorem packedFrom_append (base : Int) (l1 l2 : List blockIndex)
    (h1 : packedFrom base l1) (h2 : packedFrom (base + sumLen l1) l2) :
    packedFrom base (l1 ++ l2) := by
  induction l1 generalizing base with
  | nil => simpa [sumLen_nil] using h2
  | cons x tl ih =>
    obtain ⟨hx, htl⟩ := h1
    refine ⟨hx, ?_⟩
    apply ih _ htl
    rw [show base + x.length + sumLen tl = base + sumLen (x :: tl) by
      rw [sumLen_cons]; ring]
    exact h2

theorem encInt64_length (v : Int) : (encInt64 v).length = 8 := encN_length 8 _

theorem encInt32_length (v : Int) : (encInt32 v).length = 4 := encN_length 4 _

theorem encodeIndexRecords_cons (r : blockIndex) (tl : List blockIndex) :
    encodeIndexRecords (r :: tl)
      = (encInt64 r.startOffset ++ encInt32 r.length) ++ encodeIndexRecords tl := by
  simp [encodeIndexRecords]

/-- Decoding the persisted index region recovers the in-memory records
(the full-block recovery path is lossless). -/
theorem decodeIndexRecords_encode (l : List blockIndex)
    (hb : ∀ r ∈ l, 0 ≤ r.startOffset ∧ r.startOffset < 2 ^ 63
        ∧ 0 ≤ r.length ∧ r.length < 2 ^ 31) :
    decodeIndexRecords (encodeIndexRecords l) l.length = l := by
  induction l with
  | nil => rfl
  | cons r tl ih =>
    obtain ⟨h1, h2, h3, h4⟩ := hb r (List.mem_cons_self r tl)
    have hrec : (encInt64 r.startOffset ++ encInt32 r.length).length = 12 := by
      rw [List.length_append, encInt64_length, encInt32_length]
    rw [encodeIndexRecords_cons]
    rw [show (r :: tl).length = tl.length + 1 from rfl]
    simp only [decodeIndexRecords]
    rw [List.drop_left' hrec]
    rw [List.append_assoc]
    rw [List.take_left' (encInt64_length _)]
    rw [List.drop_left' (encInt64_length _)]
    rw [List.take_left' (encInt32_length _)]
    rw [decInt64_encInt64 _ h1 h2, decInt32_encInt32 _ h3 h4]
    rw [ih (fun x hx => hb x (List.mem_cons_of_mem r hx))]

/-- One step of the rebuild loop when the length-prefix read succeeds. -/
theorem rebuildIndex_step (file : List Nat) (off : Int) (k : Nat) (ld : List Nat)
    (hra : readAt file off 4 = some ld) :
    rebuildIndex file off (k + 1)
      = match rebuildIndex file (off + 4 + decInt32 ld) k with
        | .error e => .error e
        | .ok rest => .ok (⟨off, decInt32 ld⟩ :: rest) := by
  conv_lhs => rw [rebuildIndex]
  simp only [hra]

/-- Claim C8, amended: the packing invariant
`indexes[i].startOffset = 1024 + sum of the previous lengths` is preserved by
every successful `Append` (from a packed state whose `writeOffset` sits at the
end of the indexed payload) and holds after the full-block `loadIndex` path
reads back a persisted packed index; the partial-block rebuild path violates it
(see the counterexample). -/
theorem c8_packing_amended :
    (∀ (b : fileBlock) (es : List StoredEntry) (w : Nat × Bool),
        packedSpec b.indexes →
        b.writeOffset = fileSegmentBlockHeaderCapacity + sumLen b.indexes →
        (∀ e ∈ es, ((Marshall e).length : Int) < 2 ^ 31) →
        (Append b es w).res = .ok () →
        packedSpec (Append b es w).blk.indexes)
    ∧ (∀ (b : fileBlock) (file : List Nat) (idxs : List blockIndex),
        b.full = true →
        b.number = (idxs.length : Int) →
        (idxs.length : Int) * 12 < 2 ^ 31 →
        (∀ r ∈ idxs, 0 ≤ r.startOffset ∧ r.startOffset < 2 ^ 63
          ∧ 0 ≤ r.length ∧ r.length < 2 ^ 31) →
        readAt file b.writeOffset (12 * idxs.length) = some (encodeIndexRecords idxs) →
        packedSpec idxs →
        loadIndex b file = .ok { b with indexes := idxs }
          ∧ packedSpec (({ b with indexes := idxs } : fileBlock)).indexes) := by
  constructor
  · intro b es w hpack hwo hlen hres
    by_cases hemp : es.isEmpty
    · unfold Append at hres ⊢
      rw [if_pos hemp]
      exact hpack
    · unfold Append at hres ⊢
      rw [if_neg (by simpa using hemp)] at hres ⊢
      dsimp only at hres ⊢
      by_cases hcap : ((entryBytes es).length : Int) >
          remain b (((entryBytes es).length : Int)
            + v1IndexLength * ((buildIdxes b.writeOffset es).length : Int))
      · rw [if_pos hcap] at hres
        simp at hres
      · rw [if_neg hcap]
        dsimp only
        rw [packedSpec_iff]
        apply packedFrom_append
        · exact (packedSpec_iff b.indexes).mp hpack
        · rw [← hwo]
          exact packedFrom_buildIdxes b.writeOffset es hlen
  · intro b file idxs hfull hnum hsz hb hra hpack
    refine ⟨?_, by simpa using hpack⟩
    unfold loadIndex
    rw [if_neg (by rw [hnum]; omega)]
    rw [if_pos (by simp [IsFull, hfull])]
    dsimp only
    rw [show int32cast (b.number * v1IndexLength) = ((12 * idxs.length : Nat) : Int) by
      rw [hnum]
      unfold v1IndexLength
      rw [int32cast_self _ (by omega) (by push_cast; omega)]
      push_cast
      ring]
    rw [if_neg (by omega)]
    rw [Int.toNat_natCast]
    simp only [hra]
    rw [show b.number.toNat = idxs.length by rw [hnum]; exact Int.toNat_natCast _]
    rw [decodeIndexRecords_encode idxs hb]

/-- An unsealed two-entry block state (scenario S6: crash before sealing). -/
def c8CexBlk : fileBlock := { freshBlk with length := 16, number := 2, writeOffset := 1040 }

/-- Backing file of `c8CexBlk`: header region and the two framed entries. -/
def c8CexFile : List Nat :=
  List.replicate 1024 0 ++ (Marshall abcEntry ++ Marshall defEntry)

/-- Claim C8, counterexample: after `Initialize` of a partial block with two
entries, the rebuilt index is `[(1024, 3), (1031, 5)]`, and the packing
invariant fails at ordinal 1: `1031 ≠ 1024 + 3`. -/
theorem c8_rebuild_unpacked_cex :
    loadIndex c8CexBlk c8CexFile = .ok { c8CexBlk with indexes := [⟨1024, 3⟩, ⟨1031, 5⟩] }
    ∧ ¬ packedSpec [⟨1024, 3⟩, ⟨1031, 5⟩] := by
  have h1 : readAt c8CexFile 1024 4 = some [0, 0, 0, 3] := by
    have h := readAt_append (List.replicate 1024 0) (Marshall abcEntry ++ Marshall defEntry)
      1024 4 (by simp) (by decide)
    rw [show c8CexFile = List.replicate 1024 0 ++ (Marshall abcEntry ++ Marshall defEntry)
      from rfl, h]
    decide
  have h2 : readAt c8CexFile 1031 4 = some [0, 0, 0, 5] := by
    have h := readAt_append (List.replicate 1024 0 ++ Marshall abcEntry) (Marshall defEntry)
      1031 4 (by simp [List.length_append, Marshall_length, abcEntry]) (by decide)
    rw [show c8CexFile
        = (List.replicate 1024 0 ++ Marshall abcEntry) ++ Marshall defEntry from by
      rw [List.append_assoc]; rfl, h]
    decide
  have hr : rebuildIndex c8CexFile 1024 2 = .ok [⟨1024, 3⟩, ⟨1031, 5⟩] := by
    rw [rebuildIndex_step c8CexFile 1024 1 [0, 0, 0, 3] h1]
    rw [show (1024 : Int) + 4 + decInt32 [0, 0, 0, 3] = 1031 from by decide]
    rw [rebuildIndex_step c8CexFile 1031 0 [0, 0, 0, 5] h2]
    rfl
  constructor
  · unfold loadIndex
    rw [if_neg (by decide), if_neg (by decide)]
    rw [show c8CexBlk.number.toNat = 2 from rfl,
        show fileSegmentBlockHeaderCapacity = (1024 : Int) from rfl, hr]
  · intro h
    have := h 1 (by decide)
    simp [sumLen, fileSegmentBlockHeaderCapacity] at this

theorem c8_packing_amended_witness :
    packedSpec (Append freshBlk [abcEntry] (7, true)).blk.indexes
    ∧ (loadIndex c1FullBlk c1FullFile = .ok { c1FullBlk with indexes := [⟨1024, 7⟩] }
       ∧ packedSpec (({ c1FullBlk with indexes := [⟨1024, 7⟩] } : fileBlock)).indexes) := by
  constructor
  · exact c8_packing_amended.1 freshBlk [abcEntry] (7, true)
      ((packedSpec_iff _).mpr ((packedFromB_iff _ _).mp (by decide)))
      (by decide) (by decide) rfl
  · refine c8_packing_amended.2 c1FullBlk c1FullFile [⟨1024, 7⟩] rfl (by decide) (by decide)
      (by decide) ?_ ((packedSpec_iff _).mpr ((packedFromB_iff _ _).mp (by decide)))
    have h := readAt_append (List.replicate 1024 0 ++ Marshall abcEntry)
      (encodeIndexRecords [⟨1024, 7⟩]) 1031 12
      (by simp [List.length_append, Marshall_length, abcEntry]) (by decide)
    rw [List.append_assoc] at h
    show readAt c1FullFile 1031 12 = some (encodeIndexRecords [⟨1024, 7⟩])
    rw [show c1FullFile
        = List.replicate 1024 0 ++ (Marshall abcEntry ++ encodeIndexRecords [⟨1024, 7⟩])
      from rfl, h]
    decide

end Vanus
